import Mathlib

/-!
Shallow embedding of the core of `dba_pricerunner_scraper.py`:
price normalization (`normalize_price`), price-string extraction
(`extract_price_string`), bounded JSON-array extraction
(`_extract_json_array`), the price-range filter (`in_range`) and the
row pairing of `print_comparison_table`.

Modelling conventions:
- Python strings are Lean `String` / `List Char`.
- Python `float` results are modelled as `ℚ`; the strings reaching the
  `float(...)` calls consist only of ASCII digits and `'.'`, where the
  decimal value is what `float` parses (rounding to binary is immaterial
  to the claims checked here, which involve exactly representable values).
- The regex class `\s` and `str.strip()` are modelled on ASCII whitespace
  (the inputs of interest contain no exotic Unicode whitespace; the
  NBSP ` ` is replaced by a plain space by the code itself first).
- Fallible parses return `Option`; Python-level exceptions are modelled
  with `Except PyExc` where a claim is about raising.
-/

/-- ASCII whitespace, the model of Python's `\s` class and `str.strip()`. -/
def isPySpace (c : Char) : Bool :=
  c == ' ' || c == '\t' || c == '\n' || c == '\r' || c == '\x0b' || c == '\x0c'

/-- The regex class `[\.\s]` used by `normalize_price` (dot or whitespace). -/
def isSepDS (c : Char) : Bool := c == '.' || isPySpace c

/-- Fuel-indexed body of `str.replace`: replace every non-overlapping
occurrence of `pat` by `rep`, scanning left to right and not rescanning
the replacement (the fuel is the length of the scanned string; each step
consumes at least one character). -/
def pyReplaceFuel (pat rep : List Char) : Nat → List Char → List Char
  | 0, s => s
  | _ + 1, [] => []
  | fuel + 1, c :: cs =>
      if pat ≠ [] ∧ pat.isPrefixOf (c :: cs) then
        rep ++ pyReplaceFuel pat rep fuel ((c :: cs).drop pat.length)
      else
        c :: pyReplaceFuel pat rep fuel cs

/-- Python `s.replace(pat, rep)` for a non-empty `pat`. -/
def pyReplace (pat rep s : List Char) : List Char :=
  pyReplaceFuel pat rep s.length s

/-- Python `str.strip()`: drop leading and trailing whitespace. -/
def stripEnds (s : List Char) : List Char :=
  ((s.dropWhile isPySpace).reverse.dropWhile isPySpace).reverse

/-- `re.sub(r"[^0-9\.,\s]", "", s)`: keep only digits, dot, comma, whitespace. -/
def keepCleaned (s : List Char) : List Char :=
  s.filter (fun c => c.isDigit || c == '.' || c == ',' || isPySpace c)

/-- `re.search(r'(?:[\.\s]\d{3})', cleaned)`: some separator character is
immediately followed by three digits. -/
def hasThousands : List Char → Bool
  | [] => false
  | x :: xs =>
      (match xs with
       | a :: b :: c :: _ => isSepDS x && a.isDigit && b.isDigit && c.isDigit
       | _ => false) || hasThousands xs

/-- `re.sub(r'[\.\s]', '', s)`: remove dots and whitespace. -/
def removeSeps (s : List Char) : List Char := s.filter (fun c => !isSepDS c)

/-- `s.replace(',', '.')` on a char list. -/
def commaToDot (s : List Char) : List Char :=
  s.map (fun c => if c == ',' then '.' else c)

/-- `''.join(ch for ch in core if (ch.isdigit() or ch == '.'))`. -/
def keepDigitsDot (s : List Char) : List Char :=
  s.filter (fun c => c.isDigit || c == '.')

/-- `re.sub(r"[\s,]", "", s)`: remove whitespace and commas. -/
def removeSpComma (s : List Char) : List Char :=
  s.filter (fun c => !(isPySpace c || c == ','))

/-- `re.sub(r"[\s\.,]", "", s)`: remove whitespace, dots and commas. -/
def removeAllSeps (s : List Char) : List Char :=
  s.filter (fun c => !(isPySpace c || c == '.' || c == ','))

/-- Value of a digit string read in base 10. -/
def natOfDigits (s : List Char) : Nat :=
  s.foldl (fun n c => 10 * n + (c.toNat - 48)) 0

/-- Split a char list at its first `'.'` (the part before, the part after). -/
def splitDot : List Char → List Char × List Char
  | [] => ([], [])
  | c :: rest =>
      if c == '.' then ([], rest)
      else (c :: (splitDot rest).1, (splitDot rest).2)

/-- The decimal value denoted by an (integer part, fractional part) pair of
digit strings. -/
def decValue (p : List Char × List Char) : ℚ :=
  mkRat (natOfDigits p.1 * 10 ^ p.2.length + natOfDigits p.2) (10 ^ p.2.length)

/-- Model of Python `float(core)` at the call sites of `normalize_price`,
where `core` consists only of digits and dots: the parse succeeds iff there
is at most one dot and at least one digit, and yields the exact decimal
value (as a rational). -/
def parseDecimal (s : List Char) : Option ℚ :=
  if (s.all (fun c => c.isDigit || c == '.')) = true ∧
     s.count '.' ≤ 1 ∧ (s.any Char.isDigit) = true then
    some (decValue (splitDot s))
  else none

/-- `cleaned.rfind(c)`: index of the last occurrence, `-1` when absent. -/
def rfindC (c : Char) : List Char → Int
  | [] => -1
  | x :: xs =>
      if rfindC c xs ≥ 0 then rfindC c xs + 1
      else if x == c then 0 else -1

/-- The decimal-separator disambiguation of `normalize_price` (lines 63-75):
the later of the last `'.'` and last `','` is the decimal separator, provided
it is followed by one, two or three characters. -/
def decimalSep (cleaned : List Char) : Option Char :=
  if rfindC '.' cleaned = -1 ∧ rfindC ',' cleaned = -1 then none
  else if rfindC '.' cleaned > rfindC ',' cleaned then
    if (cleaned.length : Int) - rfindC '.' cleaned - 1 = 1 ∨
       (cleaned.length : Int) - rfindC '.' cleaned - 1 = 2 ∨
       (cleaned.length : Int) - rfindC '.' cleaned - 1 = 3
    then some '.' else none
  else
    if (cleaned.length : Int) - rfindC ',' cleaned - 1 = 1 ∨
       (cleaned.length : Int) - rfindC ',' cleaned - 1 = 2 ∨
       (cleaned.length : Int) - rfindC ',' cleaned - 1 = 3
    then some ',' else none

/-- The `core` string of the thousands branch of `normalize_price`
(lines 54-57): strip dots/whitespace, turn commas into dots, keep
digits and dots. -/
def thousandsCore (cleaned : List Char) : List Char :=
  keepDigitsDot (commaToDot (removeSeps cleaned))

/-- The currency / NBSP stripping prologue of `normalize_price` followed by
`strip()` and the keep-only-numeric-characters `re.sub` (lines 42-48). -/
def cleanedOf (s : String) : List Char :=
  keepCleaned (stripEnds
    (pyReplace ['\u00A0'] [' ']
      (pyReplace ['D', 'K', 'K'] []
        (pyReplace ['k', 'r'] []
          (pyReplace ['k', 'r', '.'] [] s.data)))))

/-- `normalize_price` (lines 37-97): extract a numeric price from a string
like `'kr. 1.234'` or `'1.234,00 kr'`; `None` (here `none`) on failure. -/
def normalize_price (s : String) : Option ℚ :=
  if s.data.isEmpty then none
  else if (cleanedOf s).isEmpty then none
  else if hasThousands (cleanedOf s) then
    parseDecimal (thousandsCore (cleanedOf s))
  else
    match decimalSep (cleanedOf s) with
    | none => parseDecimal (removeAllSeps (cleanedOf s))
    | some sep =>
        if sep == '.' then
          parseDecimal (keepDigitsDot (removeSpComma (cleanedOf s)))
        else
          parseDecimal (keepDigitsDot (commaToDot (removeSeps (cleanedOf s))))

/-! ### `extract_price_string` (lines 100-123)

The function searches `text` with the regex
`(\d{1,3}(?:[\.\s]\d{3})*(?:,\d{1,2})?)\s*(kr\.?|DKK)?` (case-insensitive).
Only the number group requires any characters (`\d{1,3}` needs one digit;
everything else can match empty), so the leftmost match starts at the first
digit of the text and is computed by plain greedy matching — no backtracking
can occur because everything after `\d{1,3}` is optional.  The fallback
regex `(\d+[\d\.\s,]*)` also requires a digit, so it never fires when the
primary one failed; a text with no digit yields `''`.  Digits are modelled
as ASCII digits. -/

/-- Greedy `\d{1,n}`: take up to `n` leading digits. -/
def takeDigits : Nat → List Char → List Char × List Char
  | 0, s => ([], s)
  | _ + 1, [] => ([], [])
  | n + 1, c :: cs =>
      if c.isDigit then
        (c :: (takeDigits n cs).1, (takeDigits n cs).2)
      else ([], c :: cs)

/-- Greedy `(?:[\.\s]\d{3})*`: consume separator-plus-three-digit groups. -/
def takeGroupsFuel : Nat → List Char → List Char × List Char
  | 0, s => ([], s)
  | fuel + 1, s =>
      match s with
      | sep :: a :: b :: c :: rest =>
          if isSepDS sep && a.isDigit && b.isDigit && c.isDigit then
            (sep :: a :: b :: c :: (takeGroupsFuel fuel rest).1,
             (takeGroupsFuel fuel rest).2)
          else ([], s)
      | _ => ([], s)

/-- Greedy `(?:,\d{1,2})?`: a comma followed by one or two digits. -/
def takeDec (s : List Char) : List Char × List Char :=
  match s with
  | ',' :: c :: rest =>
      if c.isDigit then
        match rest with
        | d :: rest2 =>
            if d.isDigit then ([',', c, d], rest2) else ([',', c], d :: rest2)
        | [] => ([',', c], [])
      else ([], s)
  | _ => ([], s)

/-- The optional currency group `(kr\.?|DKK)?`, case-insensitive, tried at
the position after `\s*`; `none` when the group matched nothing. -/
def takeCur (s : List Char) : Option (List Char) :=
  match s with
  | a :: b :: rest =>
      if (a == 'k' || a == 'K') && (b == 'r' || b == 'R') then
        match rest with
        | '.' :: _ => some [a, b, '.']
        | _ => some [a, b]
      else
        match rest with
        | c :: _ =>
            if (a == 'd' || a == 'D') && (b == 'k' || b == 'K') &&
               (c == 'k' || c == 'K') then some [a, b, c]
            else none
        | [] => none
  | _ => none

/-- ASCII uppercase, the model of Python `str.upper()` on the currency
tokens (whose characters are all ASCII letters or `'.'`). -/
def upperAscii (c : Char) : Char :=
  if 'a' ≤ c ∧ c ≤ 'z' then Char.ofNat (c.toNat - 32) else c

/-- The suffix of the text starting at its first digit, if any (the start
of the leftmost regex match). -/
def firstDigitSuffix : List Char → Option (List Char)
  | [] => none
  | c :: cs => if c.isDigit then some (c :: cs) else firstDigitSuffix cs

/-- The number group (`m.group(1)`) and currency group (`m.group(2)`) of
the price regex matched greedily at the start of `s` (whose head is a
digit). -/
def matchPrice (s : List Char) : List Char × Option (List Char) :=
  let p1 := takeDigits 3 s
  let p2 := takeGroupsFuel p1.2.length p1.2
  let p3 := takeDec p2.2
  (p1.1 ++ p2.1 ++ p3.1, takeCur (p3.2.dropWhile isPySpace))

/-- `extract_price_string` (lines 100-123): return a short price string such
as `'150 kr.'` from a larger text blob, or `''` when no digit occurs. -/
def extract_price_string (text : String) : String :=
  if text.data.isEmpty then ""
  else
    match firstDigitSuffix text.data with
    | none => ""
    | some suf =>
        let num := (matchPrice suf).1
        let cur0 := match (matchPrice suf).2 with
          | some cchars => cchars
          | none => ['k', 'r', '.']
        let cur1 := stripEnds cur0
        let cur2 := if cur1.map upperAscii = ['D', 'K', 'K'] then
            ['D', 'K', 'K'] else cur1
        String.mk (stripEnds (num ++ ' ' :: cur2))

/-! ### `_extract_json_array` (lines 242-272) -/

/-- Leftmost occurrence of `needle` in a char list (Python `str.find`),
as an index. -/
def findSubAux (needle : List Char) : List Char → Nat → Option Nat
  | [], i => if needle = [] then some i else none
  | c :: cs, i =>
      if needle.isPrefixOf (c :: cs) then some i
      else findSubAux needle cs (i + 1)

/-- Python `text.find(c, start)`: first index `≥ start` holding `c`. -/
def findFrom (c : Char) (l : List Char) (start : Nat) : Option Nat :=
  match (l.drop start).findIdx? (fun x => x == c) with
  | some k => some (start + k)
  | none => none

/-- The character loop of `_extract_json_array` (lines 255-271), run on the
text suffix starting at the opening bracket: track in-string state (toggled
on an unescaped quote), per-character escape state (a backslash outside
escape sets it and skips the rest of the iteration), and a bracket depth
counted only outside strings.  Returns the number of characters up to and
including the bracket closing depth to `0`, or `none` when the text ends
first. -/
def jsonScan : List Char → Bool → Bool → Int → Option Nat
  | [], _, _, _ => none
  | ch :: rest, in_str, esc, depth =>
      let in_str1 := if ch == '"' && !esc then !in_str else in_str
      if ch == '\\' && !esc then
        (jsonScan rest in_str1 true depth).map (· + 1)
      else
        if !in_str1 then
          if ch == '[' then (jsonScan rest in_str1 false (depth + 1)).map (· + 1)
          else if ch == ']' then
            if depth - 1 = 0 then some 1
            else (jsonScan rest in_str1 false (depth - 1)).map (· + 1)
          else (jsonScan rest in_str1 false depth).map (· + 1)
        else (jsonScan rest in_str1 false depth).map (· + 1)

/-- `_extract_json_array` (lines 242-272): find `'"key":['` in `text` and
return the balanced bracketed array starting at the first `'['` at or after
that position, or `none`. -/
def extract_json_array (text key : String) : Option String :=
  let t := text.data
  let needle := '"' :: (key.data ++ ['"', ':', '['])
  match findSubAux needle t 0 with
  | none => none
  | some idx =>
      match findFrom '[' t idx with
      | none => none
      | some i =>
          match jsonScan (t.drop i) false false 0 with
          | none => none
          | some len => some (String.mk ((t.drop i).take len))

/-! ### The listing records, `in_range` filter (lines 513-526) and the row
pairing of `print_comparison_table` (lines 336-350) -/

/-- One listing dict as assembled by the scraper: `site`, `title`, `price`
(display string), `price_num` (normalized price), `url`, `location`. -/
structure Item where
  site : String
  title : String
  price : String
  price_num : Option ℚ
  url : Option String
  location : String
deriving DecidableEq

/-- The `in_range` predicate of `main` (lines 514-522): items without a
normalized price are dropped; otherwise the price must be at least `minp`
(when given) and at most `maxp` (when given). -/
def in_range (minp maxp : Option ℚ) (it : Item) : Bool :=
  match it.price_num with
  | none => false
  | some pn =>
      if (match minp with | some m => decide (pn < m) | none => false) then false
      else if (match maxp with | some m => decide (m < pn) | none => false) then false
      else true

/-- The price filter of `main` (lines 513-526): applied only when at least
one bound was supplied. -/
def filter_by_range (items : List Item) (minp maxp : Option ℚ) : List Item :=
  if minp.isSome || maxp.isSome then items.filter (in_range minp maxp)
  else items

/-- The `(left, right)` pairs built by `print_comparison_table`
(lines 339-342): one pair per row index below
`max(len(dba_items), len(pr_items), n)`, each side absent past the end of
its list. -/
def comparison_pairs (ds ps : List Item) (n : Nat) :
    List (Option Item × Option Item) :=
  (List.range (max (max ds.length ps.length) n)).map (fun i => (ds[i]?, ps[i]?))

/-- The row pairs actually rendered: `print_comparison_table` prints
`rows[:n]` (line 362). -/
def pair_rows (ds ps : List Item) (n : Nat) :
    List (Option Item × Option Item) :=
  (comparison_pairs ds ps n).take n

/-! ### Python-exception-aware wrappers used by the never-raises claim.

`normalize_price` catches every parse failure itself (`try/except` around
each `float(...)` call, lines 58-61, 81-84 and 94-97) and guards falsy
input (`if not price_str`, line 39), so a call never raises;
`extract_price_string` likewise guards `if not text` (line 105).
`_extract_json_array`, however, immediately calls `text.find(needle)`
(line 249) with no such guard, so passing `None` raises `AttributeError`
('NoneType' object has no attribute 'find'). -/

inductive PyExc where
  | attributeError
deriving DecidableEq

/-- Calling `normalize_price` at Python level: `None` is falsy and handled
by the `if not price_str` guard. -/
def normalize_price_py (o : Option String) : Except PyExc (Option ℚ) :=
  .ok (match o with
    | none => none
    | some s => normalize_price s)

/-- Calling `extract_price_string` at Python level: `None` is falsy and
handled by the `if not text` guard. -/
def extract_price_string_py (o : Option String) : Except PyExc String :=
  .ok (match o with
    | none => ""
    | some s => extract_price_string s)

/-- Calling `_extract_json_array` at Python level: `None` reaches
`text.find(needle)` unguarded and raises `AttributeError`. -/
def extract_json_array_py (o : Option String) (key : String) :
    Except PyExc (Option String) :=
  match o with
  | none => .error .attributeError
  | some t => .ok (extract_json_array t key)

/-! ### Definitions used only in claim statements -/

/-- The triggering condition as the specification words it: some `.` or
whitespace character is immediately followed by *exactly* three digits
(i.e. three digits and then a non-digit or the end of the string).  This is
the spec-side reading that the thousands-rule claim quantifies over; the
code's own test is `hasThousands`. -/
def hasExactThousands : List Char → Bool
  | [] => false
  | x :: xs =>
      (match xs with
       | a :: b :: c :: rest =>
           isSepDS x && a.isDigit && b.isDigit && c.isDigit &&
             (match rest with
              | [] => true
              | d :: _ => !d.isDigit)
       | _ => false) || hasExactThousands xs

/-- `r` is a plain decimal rendering of the number `v`: digit characters
`a`, a dot, digit characters `b`, denoting `v`.  Python's `str` on a float
with a finite short decimal expansion (e.g. `str(0.125) = "0.125"`,
`str(1234.0) = "1234.0"`) produces exactly such a string. -/
def decRenders (a b : List Char) (v : ℚ) (r : String) : Prop :=
  a ≠ [] ∧ b ≠ [] ∧ (∀ c ∈ a, c.isDigit = true) ∧ (∀ c ∈ b, c.isDigit = true) ∧
  r.data = a ++ '.' :: b ∧ decValue (a, b) = v

/-! ## Helper lemmas -/

theorem ne_of_isDigit {c : Char} (d : Char) (h : c.isDigit = true)
    (hd : d.isDigit = false) : c ≠ d := by
  intro he
  rw [he, hd] at h
  cases h

theorem isPySpace_eq_false_of_isDigit {c : Char} (h : c.isDigit = true) :
    isPySpace c = false := by
  unfold isPySpace
  have h1 := ne_of_isDigit ' ' h (by decide)
  have h2 := ne_of_isDigit '\t' h (by decide)
  have h3 := ne_of_isDigit '\n' h (by decide)
  have h4 := ne_of_isDigit '\r' h (by decide)
  have h5 := ne_of_isDigit '\x0b' h (by decide)
  have h6 := ne_of_isDigit '\x0c' h (by decide)
  simp [h1, h2, h3, h4, h5, h6]

theorem isSepDS_eq_false_of_isDigit {c : Char} (h : c.isDigit = true) :
    isSepDS c = false := by
  unfold isSepDS
  have h1 := ne_of_isDigit '.' h (by decide)
  simp [h1, isPySpace_eq_false_of_isDigit h]

theorem decValue_nonneg (p : List Char × List Char) : 0 ≤ decValue p := by
  unfold decValue
  apply Rat.mkRat_nonneg
  positivity

theorem parseDecimal_nonneg {l : List Char} {v : ℚ}
    (h : parseDecimal l = some v) : 0 ≤ v := by
  unfold parseDecimal at h
  split at h
  · injection h with h'
    rw [← h']
    exact decValue_nonneg _
  · cases h

theorem parseDecimal_eq_none_of_noDigit {l : List Char}
    (h : l.any Char.isDigit = false) : parseDecimal l = none := by
  unfold parseDecimal
  rw [if_neg]
  rintro ⟨-, -, h3⟩
  rw [h] at h3
  cases h3

theorem mem_pyReplaceFuel {c : Char} {pat rep : List Char} :
    ∀ (fuel : Nat) (s : List Char), c ∈ pyReplaceFuel pat rep fuel s →
      c ∈ rep ∨ c ∈ s := by
  intro fuel
  induction fuel with
  | zero => exact fun s h => Or.inr h
  | succ n ih =>
    intro s h
    match s with
    | [] => exact Or.inr h
    | x :: xs =>
      rw [pyReplaceFuel] at h
      split at h
      · rcases List.mem_append.mp h with h1 | h2
        · exact Or.inl h1
        · rcases ih _ h2 with h3 | h4
          · exact Or.inl h3
          · exact Or.inr (List.mem_of_mem_drop h4)
      · rcases List.mem_cons.mp h with h1 | h2
        · exact Or.inr (h1 ▸ List.mem_cons_self x xs)
        · rcases ih _ h2 with h3 | h4
          · exact Or.inl h3
          · exact Or.inr (List.mem_cons_of_mem x h4)

theorem mem_pyReplace {c : Char} {pat rep s : List Char}
    (h : c ∈ pyReplace pat rep s) : c ∈ rep ∨ c ∈ s :=
  mem_pyReplaceFuel _ _ h

theorem mem_stripEnds {c : Char} {l : List Char} (h : c ∈ stripEnds l) :
    c ∈ l := by
  unfold stripEnds at h
  rw [List.mem_reverse] at h
  have h1 := (List.dropWhile_sublist _).mem h
  rw [List.mem_reverse] at h1
  exact (List.dropWhile_sublist _).mem h1

theorem mem_cleanedOf {c : Char} {s : String} (h : c ∈ cleanedOf s) :
    c ∈ s.data ∨ c = ' ' := by
  unfold cleanedOf at h
  have h1 := mem_stripEnds (List.mem_of_mem_filter h)
  rcases mem_pyReplace h1 with h2 | h3
  · right
    simpa using h2
  · rcases mem_pyReplace h3 with h4 | h5
    · cases h4
    · rcases mem_pyReplace h5 with h6 | h7
      · cases h6
      · rcases mem_pyReplace h7 with h8 | h9
        · cases h8
        · exact Or.inl h9

theorem hasThousands_cons (x : Char) (xs : List Char) :
    hasThousands (x :: xs) =
      ((match xs with
        | a :: b :: c :: _ => isSepDS x && a.isDigit && b.isDigit && c.isDigit
        | _ => false) || hasThousands xs) := rfl

theorem exists_digit_of_hasThousands :
    ∀ l : List Char, hasThousands l = true → ∃ c ∈ l, c.isDigit = true := by
  intro l
  induction l with
  | nil => exact fun h => by cases h
  | cons x xs ih =>
    intro h
    rw [hasThousands_cons] at h
    rcases (Bool.or_eq_true _ _).mp h with h1 | h2
    · rcases xs with _ | ⟨a, _ | ⟨b, _ | ⟨c3, rest⟩⟩⟩
      · exact absurd (show false = true from h1) (by decide)
      · exact absurd (show false = true from h1) (by decide)
      · exact absurd (show false = true from h1) (by decide)
      · have h3 : (isSepDS x && a.isDigit && b.isDigit && c3.isDigit) = true := h1
        have h4 := (Bool.and_eq_true _ _).mp h3
        exact ⟨a, by simp, ((Bool.and_eq_true _ _).mp ((Bool.and_eq_true _ _).mp h4.1).1).2⟩
    · rcases ih h2 with ⟨c, hc, hd⟩
      exact ⟨c, List.mem_cons_of_mem _ hc, hd⟩

theorem noDigit_commaToDot {l : List Char}
    (h : ∀ c ∈ l, c.isDigit = false) :
    ∀ c ∈ commaToDot l, c.isDigit = false := by
  intro c hc
  rcases List.mem_map.mp hc with ⟨d, hd, hmap⟩
  by_cases hdc : d = ','
  · rw [hdc] at hmap
    simp at hmap
    rw [← hmap]
    decide
  · simp [hdc] at hmap
    exact hmap ▸ h d hd

theorem noDigit_any {l : List Char} (h : ∀ c ∈ l, c.isDigit = false) :
    l.any Char.isDigit = false := by
  rw [List.any_eq_false]
  intro x hx
  simp [h x hx]

theorem noDigit_cleanedOf {s : String} (h : ∀ c ∈ s.data, c.isDigit = false) :
    ∀ c ∈ cleanedOf s, c.isDigit = false := by
  intro c hc
  rcases mem_cleanedOf hc with h1 | h2
  · exact h c h1
  · rw [h2]
    decide

/-! ## Claim theorems -/

/-- C10: whenever `normalize_price` returns a number, that number is
non-negative — every non-digit, non-separator character (a minus sign
included) is stripped before parsing, and the parsed strings denote
non-negative decimal values. -/
theorem normalize_price_nonneg (s : String) (v : ℚ)
    (h : normalize_price s = some v) : 0 ≤ v := by
  unfold normalize_price at h
  split at h
  · cases h
  · split at h
    · cases h
    · split at h
      · exact parseDecimal_nonneg h
      · split at h
        · exact parseDecimal_nonneg h
        · split at h
          · exact parseDecimal_nonneg h
          · exact parseDecimal_nonneg h

/-- Witness for C10: `"-150 kr"` normalizes to `150.0` (the minus sign is
stripped), and the theorem yields its non-negativity. -/
theorem normalize_price_nonneg_witness :
    normalize_price "-150 kr" = some 150 ∧ (0 : ℚ) ≤ 150 := by
  have h : normalize_price "-150 kr" = some 150 := by
    rw [show normalize_price "-150 kr" = some (mkRat 150 1) from by decide]
    norm_num [Rat.mkRat_eq_div]
  exact ⟨h, normalize_price_nonneg "-150 kr" 150 h⟩

/-- C4: a string with no digit characters (even one still containing
`'.'`, `','` or whitespace) normalizes to absent. -/
theorem normalize_price_no_digits_none (s : String)
    (h : ∀ c ∈ s.data, c.isDigit = false) : normalize_price s = none := by
  have hcl := noDigit_cleanedOf h
  have hth : ¬ hasThousands (cleanedOf s) = true := by
    intro hht
    rcases exists_digit_of_hasThousands _ hht with ⟨c, hc, hd⟩
    rw [hcl c hc] at hd
    cases hd
  unfold normalize_price
  rcases hd0 : s.data.isEmpty with _ | _
  · rw [if_neg (by simp [hd0])]
    rcases he : (cleanedOf s).isEmpty with _ | _
    · rw [if_neg (by simp [he]), if_neg hth]
      rcases hds : decimalSep (cleanedOf s) with _ | sep
      · exact parseDecimal_eq_none_of_noDigit (noDigit_any
          (fun c hc => hcl c (List.mem_of_mem_filter hc)))
      · show (if (sep == '.') = true then
              parseDecimal (keepDigitsDot (removeSpComma (cleanedOf s)))
            else
              parseDecimal (keepDigitsDot (commaToDot (removeSeps (cleanedOf s))))) = none
        by_cases hsep : (sep == '.') = true
        · rw [if_pos hsep]
          exact parseDecimal_eq_none_of_noDigit (noDigit_any
            (fun c hc => hcl c (List.mem_of_mem_filter
              (List.mem_of_mem_filter hc))))
        · rw [if_neg hsep]
          exact parseDecimal_eq_none_of_noDigit (noDigit_any
            (fun c hc => noDigit_commaToDot
              (fun d hd => hcl d (List.mem_of_mem_filter hd)) c
              (List.mem_of_mem_filter hc)))
    · rw [if_pos (by simp [he])]
  · rw [if_pos (by simp [hd0])]

/-- Witness for C4: `". , "` has no digits and normalizes to absent. -/
theorem normalize_price_no_digits_none_witness :
    normalize_price ". , " = none :=
  normalize_price_no_digits_none ". , " (by decide)

/-- C1: the concrete normalizations stated in the spec:
`"kr. 1.234"` and `"1.234,00 kr"` give `1234.0`, `"150 kr."` gives `150.0`,
`"3.250"` gives `3250.0`, `"12,5"` gives `12.5`, and `""` gives absent. -/
theorem normalize_price_spec_examples :
    normalize_price "kr. 1.234" = some 1234 ∧
    normalize_price "1.234,00 kr" = some 1234 ∧
    normalize_price "150 kr." = some 150 ∧
    normalize_price "3.250" = some 3250 ∧
    normalize_price "12,5" = some (12.5 : ℚ) ∧
    normalize_price "" = none := by
  refine ⟨?_, ?_, ?_, ?_, ?_, by decide⟩
  · rw [show normalize_price "kr. 1.234" = some (mkRat 1234 1) from by decide]
    norm_num [Rat.mkRat_eq_div]
  · rw [show normalize_price "1.234,00 kr" = some (mkRat 1234 1) from by decide]
    norm_num [Rat.mkRat_eq_div]
  · rw [show normalize_price "150 kr." = some (mkRat 150 1) from by decide]
    norm_num [Rat.mkRat_eq_div]
  · rw [show normalize_price "3.250" = some (mkRat 3250 1) from by decide]
    norm_num [Rat.mkRat_eq_div]
  · rw [show normalize_price "12,5" = some (mkRat 25 2) from by decide]
    norm_num [Rat.mkRat_eq_div]

theorem hasExactThousands_cons (x : Char) (xs : List Char) :
    hasExactThousands (x :: xs) =
      ((match xs with
        | a :: b :: c :: rest =>
            isSepDS x && a.isDigit && b.isDigit && c.isDigit &&
              (match rest with
               | [] => true
               | d :: _ => !d.isDigit)
        | _ => false) || hasExactThousands xs) := rfl

theorem hasThousands_of_exact :
    ∀ l : List Char, hasExactThousands l = true → hasThousands l = true := by
  intro l
  induction l with
  | nil => exact fun h => h
  | cons x xs ih =>
    intro h
    rw [hasExactThousands_cons] at h
    rw [hasThousands_cons]
    rcases (Bool.or_eq_true _ _).mp h with h1 | h2
    · rcases xs with _ | ⟨a, _ | ⟨b, _ | ⟨c3, rest⟩⟩⟩
      · exact absurd (show false = true from h1) (by decide)
      · exact absurd (show false = true from h1) (by decide)
      · exact absurd (show false = true from h1) (by decide)
      · exact (Bool.or_eq_true _ _).mpr
          (Or.inl ((Bool.and_eq_true _ _).mp h1).1)
    · exact (Bool.or_eq_true _ _).mpr (Or.inr (ih h2))

/-- C2: if the cleaned form of the input contains a `.` or whitespace
character immediately followed by exactly three digits, `normalize_price`
takes the thousands branch: all `.`/whitespace are stripped, a remaining
`,` becomes the decimal point, and the result is the floating-point parse
of what remains — this branch is tested before the last-separator
disambiguation. -/
theorem normalize_price_thousands_rule (s : String)
    (h : hasExactThousands (cleanedOf s) = true) :
    normalize_price s = parseDecimal (thousandsCore (cleanedOf s)) := by
  have hth := hasThousands_of_exact _ h
  have hne : (cleanedOf s).isEmpty = false := by
    rcases hcl : cleanedOf s with _ | ⟨c, cs⟩
    · rw [hcl] at h
      cases h
    · rfl
  unfold normalize_price
  rcases hd0 : s.data.isEmpty with _ | _
  · rw [if_neg (by simp [hd0]), if_neg (by simp [hne]), if_pos hth]
  · exfalso
    have hd : s.data = [] := by rwa [List.isEmpty_iff] at hd0
    have hnil : cleanedOf s = [] := by
      unfold cleanedOf pyReplace
      rw [hd]
      rfl
    rw [hnil] at h
    cases h

/-- Witness for C2: `"3.250"` satisfies the exactly-three-digits condition
and normalizes through the thousands branch. -/
theorem normalize_price_thousands_rule_witness :
    hasExactThousands (cleanedOf "3.250") = true ∧
    normalize_price "3.250" = parseDecimal (thousandsCore (cleanedOf "3.250")) :=
  ⟨by decide, normalize_price_thousands_rule "3.250" (by decide)⟩

/-- C5: a `']'` inside a quoted string (here after an escaped-quote-free
value, with escape state tracked per character) does not close the scan:
the extractor returns the full balanced array. -/
theorem extract_json_array_string_aware :
    extract_json_array "\"products\":[\x7b\"a\":1\x7d,\x7b\"b\":\"]\"\x7d]" "products"
      = some "[\x7b\"a\":1\x7d,\x7b\"b\":\"]\"\x7d]" := by decide

/-- C6 (amended): on every *string* input the three core operations return
a value or absent and raise nothing; `normalize_price` and
`extract_price_string` additionally accept an absent (`None`) argument
because of their falsy-input guards. -/
theorem core_ops_no_raise :
    (∀ o : Option String, ∃ r, normalize_price_py o = .ok r) ∧
    (∀ o : Option String, ∃ r, extract_price_string_py o = .ok r) ∧
    (∀ t k : String, ∃ r, extract_json_array_py (some t) k = .ok r) :=
  ⟨fun _ => ⟨_, rfl⟩, fun _ => ⟨_, rfl⟩, fun _ _ => ⟨_, rfl⟩⟩

/-- Counterexample to C6 as stated: `_extract_json_array` has no falsy
guard — `None` reaches `text.find(needle)` (line 249) and raises
`AttributeError` instead of returning a value or absent. -/
theorem extract_json_array_none_raises :
    extract_json_array_py none "products" = .error PyExc.attributeError := rfl

theorem in_range_eq_true_iff (minp maxp : Option ℚ) (it : Item) :
    in_range minp maxp it = true ↔
      ∃ v, it.price_num = some v ∧ (∀ m, minp = some m → m ≤ v) ∧
        (∀ M, maxp = some M → v ≤ M) := by
  unfold in_range
  cases hpn : it.price_num with
  | none => simp
  | some pn =>
    constructor
    · intro hlr
      refine ⟨pn, rfl, ?_, ?_⟩
      · intro m hm
        subst hm
        by_contra hc
        rw [not_le] at hc
        simp [hc] at hlr
      · intro M hM
        subst hM
        by_contra hc
        rw [not_le] at hc
        simp [hc] at hlr
    · rintro ⟨v, hv, hmin, hmax⟩
      injection hv with hv
      subst hv
      rcases minp with _ | m
      · rcases maxp with _ | M
        · simp
        · simp [not_lt.mpr (hmax M rfl)]
      · rcases maxp with _ | M
        · simp [not_lt.mpr (hmin m rfl)]
        · simp [not_lt.mpr (hmin m rfl), not_lt.mpr (hmax M rfl)]

/-- C7: once at least one bound is supplied, the filter keeps exactly the
records whose normalized price is present and inside the (inclusive)
bounds, an absent bound being unbounded on its side. -/
theorem filter_by_range_spec (items : List Item) (minp maxp : Option ℚ)
    (hb : minp.isSome = true ∨ maxp.isSome = true) (it : Item) :
    it ∈ filter_by_range items minp maxp ↔
      it ∈ items ∧ ∃ v, it.price_num = some v ∧
        (∀ m, minp = some m → m ≤ v) ∧ (∀ M, maxp = some M → v ≤ M) := by
  unfold filter_by_range
  rw [if_pos (by rcases hb with h | h <;> simp [h])]
  rw [List.mem_filter, in_range_eq_true_iff]

/-- A sample record with the given normalized price. -/
def itemWith (p : Option ℚ) : Item :=
  { site := "dba", title := "t", price := "", price_num := p,
    url := none, location := "" }

/-- Witness for C7: with bounds `500`/`3000`, a record priced exactly `500`
is kept (bounds are inclusive). -/
theorem filter_by_range_spec_witness :
    itemWith (some 500) ∈ filter_by_range
      [itemWith none, itemWith (some 400), itemWith (some 500),
       itemWith (some 3000), itemWith (some 3100)]
      (some 500) (some 3000) :=
  (filter_by_range_spec
      [itemWith none, itemWith (some 400), itemWith (some 500),
       itemWith (some 3000), itemWith (some 3100)]
      (some 500) (some 3000) (Or.inl rfl) (itemWith (some 500))).mpr
    ⟨by decide, 500, rfl,
     fun m hm => by
       injection hm with h
       rw [← h],
     fun M hM => by
       injection hM with h
       rw [← h]
       norm_num⟩

/-- C8: the comparison rows actually rendered are exactly `n` pairs, the
`i`-th pair holding the `i`-th record of each list (absent past the end);
alignment is purely positional. -/
theorem pair_rows_spec (ds ps : List Item) (n : Nat) :
    (pair_rows ds ps n).length = n ∧
    ∀ i, i < n → (pair_rows ds ps n)[i]? = some (ds[i]?, ps[i]?) := by
  have hlen : (comparison_pairs ds ps n).length = max (max ds.length ps.length) n := by
    unfold comparison_pairs
    rw [List.length_map, List.length_range]
  constructor
  · unfold pair_rows
    rw [List.length_take, hlen]
    omega
  · intro i hi
    unfold pair_rows
    rw [List.getElem?_take_of_lt hi]
    unfold comparison_pairs
    rw [List.getElem?_map, List.getElem?_range (by omega)]
    rfl

/-- Witness for C8: left length 3, right length 1, `n = 5` gives 5 pairs;
pair 1 has an absent right side, pairs 3 and 4 are absent on both sides. -/
theorem pair_rows_spec_witness :
    (pair_rows [itemWith (some 1), itemWith (some 2), itemWith (some 3)]
      [itemWith (some 10)] 5).length = 5 ∧
    (pair_rows [itemWith (some 1), itemWith (some 2), itemWith (some 3)]
      [itemWith (some 10)] 5)[1]? = some (some (itemWith (some 2)), none) ∧
    (pair_rows [itemWith (some 1), itemWith (some 2), itemWith (some 3)]
      [itemWith (some 10)] 5)[3]? = some (none, none) ∧
    (pair_rows [itemWith (some 1), itemWith (some 2), itemWith (some 3)]
      [itemWith (some 10)] 5)[4]? = some (none, none) := by
  refine ⟨(pair_rows_spec _ _ 5).1, ?_, ?_, ?_⟩
  · rw [(pair_rows_spec _ _ 5).2 1 (by decide)]
    rfl
  · rw [(pair_rows_spec _ _ 5).2 3 (by decide)]
    rfl
  · rw [(pair_rows_spec _ _ 5).2 4 (by decide)]
    rfl

theorem takeDigits_cons_digit (n : Nat) (c : Char) (cs : List Char)
    (hc : c.isDigit = true) :
    takeDigits (n + 1) (c :: cs) =
      (c :: (takeDigits n cs).1, (takeDigits n cs).2) := by
  rw [takeDigits, if_pos hc]

theorem takeDigits_three_digits (a b c d : Char) (rest : List Char)
    (ha : a.isDigit = true) (hb : b.isDigit = true) (hc : c.isDigit = true) :
    takeDigits 3 (a :: b :: c :: d :: rest) = ([a, b, c], d :: rest) := by
  rw [show (3 : Nat) = 2 + 1 from rfl, takeDigits_cons_digit 2 a _ ha,
      show (2 : Nat) = 1 + 1 from rfl, takeDigits_cons_digit 1 b _ hb,
      show (1 : Nat) = 0 + 1 from rfl, takeDigits_cons_digit 0 c _ hc]
  rfl

theorem takeGroupsFuel_head_not_sep (fuel : Nat) (x : Char) (xs : List Char)
    (hx : isSepDS x = false) : takeGroupsFuel fuel (x :: xs) = ([], x :: xs) := by
  cases fuel with
  | zero => rfl
  | succ n =>
    rcases xs with _ | ⟨a, _ | ⟨b, _ | ⟨c, rest⟩⟩⟩
    · rfl
    · rfl
    · rfl
    · show (if (isSepDS x && a.isDigit && b.isDigit && c.isDigit) = true then
          (x :: a :: b :: c :: (takeGroupsFuel n rest).1,
           (takeGroupsFuel n rest).2)
        else ([], x :: a :: b :: c :: rest)) = ([], x :: a :: b :: c :: rest)
      rw [if_neg]
      simp [hx]

theorem takeDec_head_not_comma (x : Char) (xs : List Char) (hx : x ≠ ',') :
    takeDec (x :: xs) = ([], x :: xs) := by
  unfold takeDec
  split
  · rename_i c rest heq
    injection heq with h1 h2
    exact absurd h1 hx
  · rfl

theorem takeCur_head_digit (x : Char) (xs : List Char) (hx : x.isDigit = true) :
    takeCur (x :: xs) = none := by
  have hk : (x == 'k') = false :=
    beq_eq_false_iff_ne.mpr (ne_of_isDigit 'k' hx (by decide))
  have hK : (x == 'K') = false :=
    beq_eq_false_iff_ne.mpr (ne_of_isDigit 'K' hx (by decide))
  have hd : (x == 'd') = false :=
    beq_eq_false_iff_ne.mpr (ne_of_isDigit 'd' hx (by decide))
  have hD : (x == 'D') = false :=
    beq_eq_false_iff_ne.mpr (ne_of_isDigit 'D' hx (by decide))
  unfold takeCur
  split
  · rename_i a b rest heq
    injection heq with h1 h2
    subst h1
    subst h2
    split
    · rename_i hcond
      rw [hk, hK] at hcond
      simp at hcond
    · split
      · rename_i c rest2 heq2
        split
        · rename_i hcond2
          rw [hd, hD] at hcond2
          simp at hcond2
        · rfl
      · rfl
  · rfl

theorem firstDigitSuffix_head_digit (c : Char) (cs : List Char)
    (hc : c.isDigit = true) : firstDigitSuffix (c :: cs) = some (c :: cs) := by
  unfold firstDigitSuffix
  rw [if_pos hc]

theorem matchPrice_digit_run (a b c d : Char) (rest : List Char)
    (ha : a.isDigit = true) (hb : b.isDigit = true) (hc : c.isDigit = true)
    (hd : d.isDigit = true) :
    matchPrice (a :: b :: c :: d :: rest) = ([a, b, c], none) := by
  have hsep := isSepDS_eq_false_of_isDigit hd
  have hcomma := ne_of_isDigit ',' hd (by decide)
  have hspace := isPySpace_eq_false_of_isDigit hd
  simp only [matchPrice,
    takeDigits_three_digits a b c d rest ha hb hc,
    takeGroupsFuel_head_not_sep _ d rest hsep,
    takeDec_head_not_comma d rest hcomma,
    List.dropWhile_cons, hspace,
    takeCur_head_digit d rest hd]
  simp [takeCur_head_digit d rest hd]

theorem stripEnds_eq_self_of_ends (x y : Char) (l : List Char)
    (hx : isPySpace x = false) (hy : isPySpace y = false) :
    stripEnds (x :: (l ++ [y])) = x :: (l ++ [y]) := by
  unfold stripEnds
  rw [List.dropWhile_cons, if_neg (by simp [hx])]
  have hrev : (x :: (l ++ [y])).reverse = y :: (l.reverse ++ [x]) := by simp
  rw [hrev, List.dropWhile_cons, if_neg (by simp [hy]), ← hrev,
      List.reverse_reverse]

/-- C9: on a bare run of four or more (ASCII) digits, the price-string
extractor returns only the first three digits plus the default currency
suffix: the `\d{1,3}` head of the primary pattern matches a prefix and the
any-digit-run fallback is never consulted. -/
theorem extract_price_string_digit_run (s : String)
    (hlen : 4 ≤ s.data.length) (hdig : ∀ c ∈ s.data, c.isDigit = true) :
    extract_price_string s = String.mk (s.data.take 3 ++ [' ', 'k', 'r', '.']) := by
  rcases hs : s.data with _ | ⟨a, _ | ⟨b, _ | ⟨c, _ | ⟨d, rest⟩⟩⟩⟩
  · rw [hs] at hlen
    simp at hlen
  · rw [hs] at hlen
    simp at hlen
  · rw [hs] at hlen
    simp at hlen
  · rw [hs] at hlen
    simp at hlen
  · rw [hs] at hdig
    have ha := hdig a (by simp)
    have hb := hdig b (by simp)
    have hc := hdig c (by simp)
    have hd := hdig d (by simp)
    unfold extract_price_string
    rw [if_neg (by rw [hs]; simp), hs,
        firstDigitSuffix_head_digit a _ ha]
    dsimp only
    rw [matchPrice_digit_run a b c d rest ha hb hc hd]
    dsimp only
    rw [show stripEnds ['k', 'r', '.'] = ['k', 'r', '.'] from rfl,
        if_neg (by decide)]
    rw [show ([a, b, c] ++ ' ' :: ['k', 'r', '.'])
          = a :: ([b, c, ' ', 'k', 'r'] ++ ['.']) from rfl]
    rw [stripEnds_eq_self_of_ends a '.' [b, c, ' ', 'k', 'r']
        (isPySpace_eq_false_of_isDigit ha) (by decide)]
    rfl

/-- Witness for C9: `"12345"` extracts as `"123 kr."`. -/
theorem extract_price_string_digit_run_witness :
    extract_price_string "12345" = "123 kr." := by
  have h := extract_price_string_digit_run "12345" (by decide) (by decide)
  rw [h]
  rfl

theorem pyReplaceFuel_no_first {p0 : Char} {pt rep : List Char} :
    ∀ (fuel : Nat) (s : List Char), p0 ∉ s →
      pyReplaceFuel (p0 :: pt) rep fuel s = s := by
  intro fuel
  induction fuel with
  | zero => exact fun s _ => rfl
  | succ n ih =>
    intro s h
    match s with
    | [] => rfl
    | c :: cs =>
      rw [pyReplaceFuel, if_neg, ih cs (fun hm => h (List.mem_cons_of_mem _ hm))]
      rintro ⟨-, hpre⟩
      have hbc : (p0 == c && List.isPrefixOf pt cs) = true := hpre
      have hpc : p0 = c := eq_of_beq ((Bool.and_eq_true _ _).mp hbc).1
      exact h (hpc ▸ List.mem_cons_self p0 cs)

theorem dropWhile_eq_self_of_all (p : Char → Bool) (l : List Char)
    (h : ∀ c ∈ l, p c = false) : l.dropWhile p = l := by
  cases l with
  | nil => rfl
  | cons x xs => rw [List.dropWhile_cons, if_neg (by simp [h x (by simp)])]

theorem stripEnds_eq_self_of_noSpace (l : List Char)
    (h : ∀ c ∈ l, isPySpace c = false) : stripEnds l = l := by
  unfold stripEnds
  rw [dropWhile_eq_self_of_all _ l h,
      dropWhile_eq_self_of_all _ l.reverse
        (fun c hc => h c (List.mem_reverse.mp hc)),
      List.reverse_reverse]

theorem cleanedOf_digits_dot (r : String)
    (hall : ∀ c ∈ r.data, c.isDigit = true ∨ c = '.') :
    cleanedOf r = r.data := by
  have hnd : ∀ d : Char, d.isDigit = false → d ≠ '.' → d ∉ r.data := by
    intro d hd hdot hm
    rcases hall d hm with h | h
    · rw [hd] at h
      cases h
    · exact hdot h
  have hsp : ∀ c ∈ r.data, isPySpace c = false := by
    intro c hc
    rcases hall c hc with h | h
    · exact isPySpace_eq_false_of_isDigit h
    · rw [h]
      rfl
  unfold cleanedOf pyReplace
  rw [pyReplaceFuel_no_first _ _ (hnd 'k' (by decide) (by decide)),
      pyReplaceFuel_no_first _ _ (hnd 'k' (by decide) (by decide)),
      pyReplaceFuel_no_first _ _ (hnd 'D' (by decide) (by decide)),
      pyReplaceFuel_no_first _ _ (hnd '\u00A0' (by decide) (by decide)),
      stripEnds_eq_self_of_noSpace _ hsp]
  unfold keepCleaned
  rw [List.filter_eq_self]
  intro c hc
  rcases hall c hc with h | h
  · simp [h]
  · simp [h]

theorem hasThousands_cons_false (x : Char) (xs : List Char)
    (hx : isSepDS x = false) (hxs : hasThousands xs = false) :
    hasThousands (x :: xs) = false := by
  rw [hasThousands_cons, hxs]
  rcases xs with _ | ⟨p, _ | ⟨q, _ | ⟨r2, rest⟩⟩⟩
  · rfl
  · rfl
  · rfl
  · show (isSepDS x && p.isDigit && q.isDigit && r2.isDigit || false) = false
    simp [hx]

theorem hasThousands_all_digits :
    ∀ l : List Char, (∀ c ∈ l, c.isDigit = true) → hasThousands l = false := by
  intro l
  induction l with
  | nil => exact fun _ => rfl
  | cons x xs ih =>
    intro h
    exact hasThousands_cons_false x xs
      (isSepDS_eq_false_of_isDigit (h x (by simp)))
      (ih (fun c hc => h c (List.mem_cons_of_mem _ hc)))

theorem hasThousands_digits_dot_short (a b : List Char)
    (hda : ∀ c ∈ a, c.isDigit = true) (hdb : ∀ c ∈ b, c.isDigit = true)
    (hshort : b.length ≤ 2) : hasThousands (a ++ '.' :: b) = false := by
  induction a with
  | nil =>
    rw [List.nil_append, hasThousands_cons,
        hasThousands_all_digits b hdb]
    rcases b with _ | ⟨x, _ | ⟨y, _ | ⟨z, rest⟩⟩⟩
    · rfl
    · rfl
    · rfl
    · simp at hshort
  | cons x xs ih =>
    rw [List.cons_append]
    exact hasThousands_cons_false x (xs ++ '.' :: b)
      (isSepDS_eq_false_of_isDigit (hda x (by simp)))
      (ih (fun c hc => hda c (List.mem_cons_of_mem _ hc)))

theorem rfindC_eq_neg_one_of_not_mem (c : Char) :
    ∀ l : List Char, c ∉ l → rfindC c l = -1 := by
  intro l
  induction l with
  | nil => exact fun _ => rfl
  | cons x xs ih =>
    intro h
    rw [rfindC, ih (fun hm => h (List.mem_cons_of_mem _ hm))]
    rw [if_neg (by norm_num), if_neg]
    intro hbeq
    exact h ((eq_of_beq hbeq) ▸ List.mem_cons_self x xs)

theorem rfindC_cons_self_of_not_mem (c : Char) (l : List Char) (h : c ∉ l) :
    rfindC c (c :: l) = 0 := by
  rw [rfindC, rfindC_eq_neg_one_of_not_mem c l h]
  rw [if_neg (by norm_num), if_pos (by simp)]

theorem rfindC_append_of_not_mem_left (c : Char) (l2 : List Char) :
    ∀ l1 : List Char, c ∉ l1 → rfindC c l2 ≥ 0 →
      rfindC c (l1 ++ l2) = l1.length + rfindC c l2 := by
  intro l1
  induction l1 with
  | nil =>
    intro _ _
    simp
  | cons x xs ih =>
    intro h h2
    rw [List.cons_append, rfindC,
        ih (fun hm => h (List.mem_cons_of_mem _ hm)) h2,
        if_pos (by omega)]
    simp
    omega

theorem decimalSep_digits_dot (a b : List Char)
    (hda : ∀ c ∈ a, c.isDigit = true) (hdb : ∀ c ∈ b, c.isDigit = true)
    (hb1 : 1 ≤ b.length) (hb3 : b.length ≤ 3) :
    decimalSep (a ++ '.' :: b) = some '.' := by
  have hdot_a : '.' ∉ a := fun hm => absurd (hda _ hm) (by decide)
  have hdot_b : '.' ∉ b := fun hm => absurd (hdb _ hm) (by decide)
  have hcomma : ',' ∉ a ++ '.' :: b := by
    intro hm
    rcases List.mem_append.mp hm with h | h
    · exact absurd (hda _ h) (by decide)
    · rcases List.mem_cons.mp h with h | h
      · exact absurd h (by decide)
      · exact absurd (hdb _ h) (by decide)
  have h0 : rfindC '.' ('.' :: b) = 0 := rfindC_cons_self_of_not_mem '.' b hdot_b
  have hdot : rfindC '.' (a ++ '.' :: b) = (a.length : Int) := by
    rw [rfindC_append_of_not_mem_left '.' _ a hdot_a (by rw [h0]), h0]
    omega
  have hcm : rfindC ',' (a ++ '.' :: b) = -1 :=
    rfindC_eq_neg_one_of_not_mem _ _ hcomma
  have hlen : ((a ++ '.' :: b).length : Int) = a.length + 1 + b.length := by
    simp [List.length_append]
    omega
  unfold decimalSep
  rw [hdot, hcm, if_neg (by rintro ⟨h1, -⟩; omega), if_pos (by omega),
      if_pos (by rw [hlen]; omega)]

theorem splitDot_append (a b : List Char) (ha : '.' ∉ a) :
    splitDot (a ++ '.' :: b) = (a, b) := by
  induction a with
  | nil =>
    rw [List.nil_append, splitDot, if_pos (by simp)]
  | cons x xs ih =>
    rw [List.cons_append, splitDot,
        if_neg (by
          intro hbeq
          exact ha ((eq_of_beq hbeq) ▸ List.mem_cons_self x xs)),
        ih (fun hm => ha (List.mem_cons_of_mem _ hm))]

theorem parseDecimal_digits_dot (a b : List Char)
    (hda : ∀ c ∈ a, c.isDigit = true) (hdb : ∀ c ∈ b, c.isDigit = true)
    (ha0 : a ≠ []) :
    parseDecimal (a ++ '.' :: b) = some (decValue (a, b)) := by
  have hdot_a : '.' ∉ a := fun hm => absurd (hda _ hm) (by decide)
  have hdot_b : '.' ∉ b := fun hm => absurd (hdb _ hm) (by decide)
  have hcond : ((a ++ '.' :: b).all (fun c => c.isDigit || c == '.')) = true ∧
      (a ++ '.' :: b).count '.' ≤ 1 ∧
      ((a ++ '.' :: b).any Char.isDigit) = true := by
    refine ⟨?_, ?_, ?_⟩
    · rw [List.all_eq_true]
      intro c hc
      rcases List.mem_append.mp hc with h | h
      · simp [hda c h]
      · rcases List.mem_cons.mp h with h | h
        · simp [h]
        · simp [hdb c h]
    · rw [List.count_append]
      have h1 : a.count '.' = 0 := List.count_eq_zero.mpr hdot_a
      have h2 : ('.' :: b).count '.' = b.count '.' + 1 :=
        List.count_cons_self _ _
      have h3 : b.count '.' = 0 := List.count_eq_zero.mpr hdot_b
      omega
    · rw [List.any_eq_true]
      rcases a with _ | ⟨x, xs⟩
      · exact absurd rfl ha0
      · exact ⟨x, by simp, hda x (by simp)⟩
  unfold parseDecimal
  rw [if_pos hcond, splitDot_append a b hdot_a]

/-- C3 (amended): renormalizing a decimal rendering with one or two
fractional digits returns the same value: for every `s` that parses to `v`
and every rendering `a.b` of `v` with `|b| ≤ 2`, the rendering normalizes
back to `v`.  (Python's `str` of a typical price prints at most two
fractional digits, e.g. `"1234.0"` or `"12.5"`; renderings with three or
more fractional digits can misfire the thousands rule — see the
counterexample.) -/
theorem normalize_price_render_reparse_short (s : String) (v : ℚ) (r : String)
    (a b : List Char) (hparse : normalize_price s = some v)
    (hrender : decRenders a b v r) (hshort : b.length ≤ 2) :
    normalize_price r = some v := by
  obtain ⟨ha0, hb0, hda, hdb, hr, hv⟩ := hrender
  have hall2 : ∀ c ∈ a ++ '.' :: b, c.isDigit = true ∨ c = '.' := by
    intro c hc
    rcases List.mem_append.mp hc with h | h
    · exact Or.inl (hda c h)
    · rcases List.mem_cons.mp h with h | h
      · exact Or.inr h
      · exact Or.inl (hdb c h)
  have hall : ∀ c ∈ r.data, c.isDigit = true ∨ c = '.' := by
    intro c hc
    rw [hr] at hc
    exact hall2 c hc
  have hclean : cleanedOf r = a ++ '.' :: b := by
    rw [cleanedOf_digits_dot r hall, hr]
  have hb1 : 1 ≤ b.length := by
    rcases b with _ | _
    · exact absurd rfl hb0
    · simp
  have hrm : removeSpComma (a ++ '.' :: b) = a ++ '.' :: b := by
    unfold removeSpComma
    rw [List.filter_eq_self]
    intro c hc
    rcases hall2 c hc with h | h
    · simp [isPySpace_eq_false_of_isDigit h,
        beq_eq_false_iff_ne.mpr (ne_of_isDigit ',' h (by decide))]
    · rw [h]
      rfl
  have hkd : keepDigitsDot (a ++ '.' :: b) = a ++ '.' :: b := by
    unfold keepDigitsDot
    rw [List.filter_eq_self]
    intro c hc
    rcases hall2 c hc with h | h
    · simp [h]
    · simp [h]
  unfold normalize_price
  rw [if_neg (by
        rw [hr]
        rcases a with _ | ⟨x, xs⟩
        · exact absurd rfl ha0
        · simp)]
  rw [hclean]
  rw [if_neg (by
        rcases a with _ | ⟨x, xs⟩
        · exact absurd rfl ha0
        · simp)]
  rw [if_neg (by
        rw [hasThousands_digits_dot_short a b hda hdb hshort]
        simp)]
  rw [decimalSep_digits_dot a b hda hdb hb1 (by omega)]
  show (if ('.' == '.') = true then
      parseDecimal (keepDigitsDot (removeSpComma (a ++ '.' :: b)))
    else
      parseDecimal (keepDigitsDot (commaToDot (removeSeps (a ++ '.' :: b)))))
    = some v
  rw [if_pos (by decide), hrm, hkd, parseDecimal_digits_dot a b hda hdb ha0, hv]

/-- Witness for the amended C3: `"12,5"` parses to `12.5`, rendered
`"12.5"`, which normalizes back to `12.5`. -/
theorem normalize_price_render_reparse_short_witness :
    normalize_price "12,5" = some (12.5 : ℚ) ∧
    decRenders ['1', '2'] ['5'] (12.5 : ℚ) "12.5" ∧
    normalize_price "12.5" = some (12.5 : ℚ) := by
  have h1 : normalize_price "12,5" = some (12.5 : ℚ) := by
    rw [show normalize_price "12,5" = some (mkRat 25 2) from by decide]
    norm_num [Rat.mkRat_eq_div]
  have h2 : decRenders ['1', '2'] ['5'] (12.5 : ℚ) "12.5" := by
    refine ⟨by decide, by decide, by decide, by decide, by decide, ?_⟩
    rw [show decValue (['1', '2'], ['5']) = mkRat 125 10 from by decide]
    norm_num [Rat.mkRat_eq_div]
  exact ⟨h1, h2, normalize_price_render_reparse_short "12,5" (12.5 : ℚ) "12.5"
    ['1', '2'] ['5'] h1 h2 (by decide)⟩

/-- Counterexample to C3 as stated: `normalize_price "0,125"` returns
`0.125`; Python renders that value as `"0.125"` (`str(0.125) = "0.125"`,
a decimal rendering in the sense of `decRenders`); but renormalizing
`"0.125"` yields `125.0` — the dot followed by three digits fires the
thousands rule — so `normalize(str(normalize(s))) ≠ normalize(s)`. -/
theorem normalize_price_render_reparse_cex :
    normalize_price "0,125" = some ((1 : ℚ) / 8) ∧
    decRenders ['0'] ['1', '2', '5'] ((1 : ℚ) / 8) "0.125" ∧
    normalize_price "0.125" = some 125 ∧ ((125 : ℚ) ≠ (1 : ℚ) / 8) := by
  refine ⟨?_, ?_, ?_, by norm_num⟩
  · rw [show normalize_price "0,125" = some (mkRat 1 8) from by decide]
    norm_num [Rat.mkRat_eq_div]
  · refine ⟨by decide, by decide, by decide, by decide, by decide, ?_⟩
    rw [show decValue (['0'], ['1', '2', '5']) = mkRat 125 1000 from by decide]
    norm_num [Rat.mkRat_eq_div]
  · rw [show normalize_price "0.125" = some (mkRat 125 1) from by decide]
    norm_num [Rat.mkRat_eq_div]
